import Mathlib

/-!
Shallow embedding of the `just-rng` crate (sources: `src/wyrand.rs`,
`src/perm.rs`, `src/lib.rs`, `src/seed.rs`).

Machine integers are modelled as `ℕ` (unsigned, with explicit `% 2^w`
wrapping where the Rust code can wrap) and `ℤ` (signed, with explicit
two's-complement wrapping helpers).  Rust operations that can panic
(indexing out of bounds, `%` by zero) are modelled with `Option`, where
`none` is a panic.  Arithmetic overflow of `+`/`-`/`*` is modelled with
the defined release-profile behaviour (two's-complement wrapping).
IEEE-754 floating point (`f64`/`f32`) is modelled exactly over `ℚ`:
every primitive operation is the exact rational operation followed by
round-to-nearest-even at 53 (resp. 24) significant bits; the model covers
the normal range, which suffices for all values appearing here.
-/

namespace JustRng

/-- Modelled from the spec: the crate's `primes` module (`P0`, `P1`) is not
among the given sources; the spec says only that the generator is
parameterised by two fixed odd 64-bit prime mixing constants which must match
the reference values bit-for-bit for interoperability.  We use the reference
wyrand constants; nothing proved below depends on their particular values. -/
def P0 : ℕ := 0xa0761d6478bd642f

/-- Modelled from the spec: the second fixed odd 64-bit mixing constant. -/
def P1 : ℕ := 0xe7037ed1a0b428db

/-- `WyRand::next::<u64>` (src/wyrand.rs:41-45): state update
`state = state.wrapping_add(P0)`, 128-bit product
`r = u128(state) * u128(state ^ P1)` (wrapping), output
`(r.wrapping_shr(64) ^ r) as u64`.  Returns (new state, raw 64-bit hash). -/
def wnext (s : ℕ) : ℕ × ℕ :=
  let s2 := (s + P0) % 2 ^ 64
  let r := (s2 * (s2 ^^^ P1)) % 2 ^ 128
  (s2, ((r >>> 64) ^^^ r) % 2 ^ 64)

/-- The state-advance part of `WyRand::next`. -/
def advance (s : ℕ) : ℕ := (wnext s).1

/-- The first `n` raw 64-bit hashes produced by a generator whose current
state is `seed` (repeated calls to `WyRand::next`). -/
def wseq (seed : ℕ) : ℕ → List ℕ
  | 0 => []
  | n + 1 => (wnext seed).2 :: wseq (advance seed) n

/-- Folding the high and low 64-bit halves of a (wrapped) 128-bit value:
the shift/xor/truncate combination in the source equals the arithmetic
"high half XOR low half" description. -/
theorem shiftRight_xor_mod_two_pow (x : ℕ) :
    (((x % 2 ^ 128) >>> 64) ^^^ x % 2 ^ 128) % 2 ^ 64 =
      (x % 2 ^ 128 / 2 ^ 64) ^^^ (x % 2 ^ 128 % 2 ^ 64) := by
  generalize hx : x % 2 ^ 128 = r
  have hr : r / 2 ^ 64 < 2 ^ 64 := by omega
  apply Nat.eq_of_testBit_eq
  intro i
  simp only [Nat.testBit_mod_two_pow, Nat.testBit_xor, Nat.shiftRight_eq_div_pow]
  by_cases hi : i < 64
  · simp [hi]
  · simp only [hi, decide_False, Bool.false_and, Bool.and_false, Bool.xor_false]
    rw [Nat.testBit_lt_two_pow
      (Nat.lt_of_lt_of_le hr (Nat.pow_le_pow_right (by omega) (by omega)))]

/-- C7: one call to `WyRand::next` replaces the state `s` by
`s' = (s + P0) mod 2^64` and outputs the XOR of the high and the low 64-bit
halves of the 128-bit product `s' * (s' XOR P1) mod 2^128`; same-seeded
generators produce identical hash sequences. -/
theorem c7_next_formula_and_determinism :
    (∀ s : ℕ,
      (wnext s).1 = (s + P0) % 2 ^ 64 ∧
      (wnext s).2 =
        ((((s + P0) % 2 ^ 64) * (((s + P0) % 2 ^ 64) ^^^ P1) % 2 ^ 128) / 2 ^ 64) ^^^
        ((((s + P0) % 2 ^ 64) * (((s + P0) % 2 ^ 64) ^^^ P1) % 2 ^ 128) % 2 ^ 64)) ∧
    (∀ s t : ℕ, s = t → ∀ n : ℕ, wseq s n = wseq t n) :=
  ⟨fun s => ⟨rfl, shiftRight_xor_mod_two_pow ((s + P0) % 2 ^ 64 * ((s + P0) % 2 ^ 64 ^^^ P1))⟩,
   fun s t h n => by rw [h]⟩

/-- Concrete instance of `c7_next_formula_and_determinism`: the determinism
conjunct applied to the seed 5, and the state-update formula at state 5. -/
theorem c7_next_formula_and_determinism_witness :
    wseq 5 3 = wseq 5 3 ∧ (wnext 5).1 = (5 + P0) % 2 ^ 64 :=
  ⟨c7_next_formula_and_determinism.2 5 5 rfl 3,
   (c7_next_formula_and_determinism.1 5).1⟩

/-- Two's-complement wrapping `u64` subtraction (release-profile semantics),
intended for `a, b < 2^64`. -/
def wsub64 (a b : ℕ) : ℕ := (a + 2 ^ 64 - b) % 2 ^ 64

/-- Reinterpretation of an integer modulo `2^w` as a two's-complement signed
`w`-bit value (used both for wrapping signed arithmetic and for the
truncating/reinterpreting casts in the source). -/
def wrapS (w : ℕ) (x : ℤ) : ℤ := (x + 2 ^ (w - 1)) % 2 ^ w - 2 ^ (w - 1)

/-- `RangeRng for u64` (src/wyrand.rs:211-215):
`range.start + (v % (range.end - range.start))`, all in `u64`.
`%` by zero (a Rust panic in every profile) is `none`; the subtraction and
addition wrap (release profile). -/
def u64.from_range (v s e : ℕ) : Option ℕ :=
  let span := wsub64 e s
  if span = 0 then none else some ((s + v % span) % 2 ^ 64)

/-- `RangeRng for usize` (src/wyrand.rs:223-227):
`range.start + (v % (range.end as u64 - range.start as u64)) as usize`,
on a 64-bit target (the `usize <-> u64` casts are identities there). -/
def usize.from_range (v s e : ℕ) : Option ℕ :=
  let span := wsub64 e s
  if span = 0 then none else some ((s + v % span) % 2 ^ 64)

/-- `RangeRng for u32` (src/wyrand.rs:235-239):
`range.start + (v % (range.end as u64 - range.start as u64)) as u32`:
the span is computed in `u64` after widening each bound, the remainder is
truncated to 32 bits, and the final addition is a (wrapping) `u32` addition. -/
def u32.from_range (v s e : ℕ) : Option ℕ :=
  let span := wsub64 e s
  if span = 0 then none else some ((s + v % span % 2 ^ 32) % 2 ^ 32)

/-- `RangeRng for u16` (src/wyrand.rs:247-251), same shape as `u32`. -/
def u16.from_range (v s e : ℕ) : Option ℕ :=
  let span := wsub64 e s
  if span = 0 then none else some ((s + v % span % 2 ^ 16) % 2 ^ 16)

/-- `RangeRng for u8` (src/wyrand.rs:259-263), same shape as `u32`. -/
def u8.from_range (v s e : ℕ) : Option ℕ :=
  let span := wsub64 e s
  if span = 0 then none else some ((s + v % span % 2 ^ 8) % 2 ^ 8)

/-- `RangeRng for i64` (src/wyrand.rs:217-221):
`range.start + (v % (range.end - range.start) as u64) as i64`.
The subtraction happens in `i64` (wrapping, release profile), the `as u64`
cast reinterprets its bit pattern, `v % _` is a `u64` remainder (`none` on a
zero divisor), the `as i64` cast reinterprets the remainder, and the final
addition is a wrapping `i64` addition. -/
def i64.from_range (v : ℕ) (s e : ℤ) : Option ℤ :=
  let du := (wrapS 64 (e - s) % 2 ^ 64).toNat
  if du = 0 then none else some (wrapS 64 (s + wrapS 64 (v % du)))

/-- `RangeRng for isize` (src/wyrand.rs:229-233), identical in structure to
the `i64` instance on a 64-bit target. -/
def isize.from_range (v : ℕ) (s e : ℤ) : Option ℤ :=
  let du := (wrapS 64 (e - s) % 2 ^ 64).toNat
  if du = 0 then none else some (wrapS 64 (s + wrapS 64 (v % du)))

/-- `RangeRng for i32` (src/wyrand.rs:241-245):
`range.start + (v % (range.end - range.start) as u64) as i32`.
The subtraction happens in `i32` (wrapping), `as u64` sign-extends the
32-bit pattern, and `as i32` truncates the 64-bit remainder to 32 bits
and reinterprets it. -/
def i32.from_range (v : ℕ) (s e : ℤ) : Option ℤ :=
  let du := (wrapS 32 (e - s) % 2 ^ 64).toNat
  if du = 0 then none else some (wrapS 32 (s + wrapS 32 (v % du)))

/-- `RangeRng for i16` (src/wyrand.rs:253-257), same shape as `i32`. -/
def i16.from_range (v : ℕ) (s e : ℤ) : Option ℤ :=
  let du := (wrapS 16 (e - s) % 2 ^ 64).toNat
  if du = 0 then none else some (wrapS 16 (s + wrapS 16 (v % du)))

/-- `RangeRng for i8` (src/wyrand.rs:265-269), same shape as `i32`. -/
def i8.from_range (v : ℕ) (s e : ℤ) : Option ℤ :=
  let du := (wrapS 8 (e - s) % 2 ^ 64).toNat
  if du = 0 then none else some (wrapS 8 (s + wrapS 8 (v % du)))

/-- Reinterpretation modulo `2^w` is the identity on values already in the
signed `w`-bit range. -/
theorem wrapS_eq_self {w : ℕ} (hw : 1 ≤ w) {x : ℤ} (h1 : -2 ^ (w - 1) ≤ x)
    (h2 : x < 2 ^ (w - 1)) : wrapS w x = x := by
  have h2w : (2 : ℤ) ^ w = 2 * 2 ^ (w - 1) := by
    conv_lhs => rw [show w = (w - 1) + 1 by omega]
    ring
  unfold wrapS
  rw [Int.emod_eq_of_lt (by omega) (by omega)]
  omega

/-- For a valid `u64` range the result of `from_range` is exactly
`start + (hash mod (end - start))` and lies in `[start, end)`. -/
theorem u64_from_range_spec (v s e : ℕ) (h1 : s < e) (h2 : e < 2 ^ 64) :
    u64.from_range v s e = some (s + v % (e - s)) ∧
    s ≤ s + v % (e - s) ∧ s + v % (e - s) < e := by
  have hspan : wsub64 e s = e - s := by unfold wsub64; omega
  have hmod : v % (e - s) < e - s := Nat.mod_lt _ (by omega)
  refine ⟨?_, by omega, by omega⟩
  simp only [u64.from_range, hspan]
  rw [if_neg (by omega)]
  congr 1
  omega

/-- `usize` analogue of `u64_from_range_spec` (64-bit target). -/
theorem usize_from_range_spec (v s e : ℕ) (h1 : s < e) (h2 : e < 2 ^ 64) :
    usize.from_range v s e = some (s + v % (e - s)) ∧
    s ≤ s + v % (e - s) ∧ s + v % (e - s) < e := by
  have hspan : wsub64 e s = e - s := by unfold wsub64; omega
  have hmod : v % (e - s) < e - s := Nat.mod_lt _ (by omega)
  refine ⟨?_, by omega, by omega⟩
  simp only [usize.from_range, hspan]
  rw [if_neg (by omega)]
  congr 1
  omega

/-- `u32` analogue: the span is computed in `u64`, so the only requirement is
that the bounds are `u32` values. -/
theorem u32_from_range_spec (v s e : ℕ) (h1 : s < e) (h2 : e < 2 ^ 32) :
    u32.from_range v s e = some (s + v % (e - s)) ∧
    s ≤ s + v % (e - s) ∧ s + v % (e - s) < e := by
  have hspan : wsub64 e s = e - s := by unfold wsub64; omega
  have hmod : v % (e - s) < e - s := Nat.mod_lt _ (by omega)
  refine ⟨?_, by omega, by omega⟩
  simp only [u32.from_range, hspan]
  rw [if_neg (by omega)]
  congr 1
  omega

/-- `u16` analogue of `u32_from_range_spec`. -/
theorem u16_from_range_spec (v s e : ℕ) (h1 : s < e) (h2 : e < 2 ^ 16) :
    u16.from_range v s e = some (s + v % (e - s)) ∧
    s ≤ s + v % (e - s) ∧ s + v % (e - s) < e := by
  have hspan : wsub64 e s = e - s := by unfold wsub64; omega
  have hmod : v % (e - s) < e - s := Nat.mod_lt _ (by omega)
  refine ⟨?_, by omega, by omega⟩
  simp only [u16.from_range, hspan]
  rw [if_neg (by omega)]
  congr 1
  omega

/-- `u8` analogue of `u32_from_range_spec`. -/
theorem u8_from_range_spec (v s e : ℕ) (h1 : s < e) (h2 : e < 2 ^ 8) :
    u8.from_range v s e = some (s + v % (e - s)) ∧
    s ≤ s + v % (e - s) ∧ s + v % (e - s) < e := by
  have hspan : wsub64 e s = e - s := by unfold wsub64; omega
  have hmod : v % (e - s) < e - s := Nat.mod_lt _ (by omega)
  refine ⟨?_, by omega, by omega⟩
  simp only [u8.from_range, hspan]
  rw [if_neg (by omega)]
  congr 1
  omega

/-- For a valid `i64` range whose span fits in `i64`, `from_range` is exactly
`start + (hash mod (end - start))` and lies in `[start, end)`. -/
theorem i64_from_range_spec (v : ℕ) (s e : ℤ) (h1 : -2 ^ 63 ≤ s) (h2 : s < e)
    (h3 : e < 2 ^ 63) (h4 : e - s < 2 ^ 63) :
    i64.from_range v s e = some (s + (v : ℤ) % (e - s)) ∧
    s ≤ s + (v : ℤ) % (e - s) ∧ s + (v : ℤ) % (e - s) < e := by
  have hr0 : 0 ≤ (v : ℤ) % (e - s) := Int.emod_nonneg _ (by omega)
  have hr1 : (v : ℤ) % (e - s) < e - s := Int.emod_lt_of_pos _ (by omega)
  have h5 : wrapS 64 (e - s) % 2 ^ 64 = e - s := by
    rw [wrapS_eq_self (by norm_num) (by norm_num; omega) (by norm_num; omega)]
    exact Int.emod_eq_of_lt (by omega) (by omega)
  have hdu : (((wrapS 64 (e - s) % 2 ^ 64).toNat : ℕ) : ℤ) = e - s := by omega
  have hinner : wrapS 64 ((v : ℤ) % (e - s)) = (v : ℤ) % (e - s) :=
    wrapS_eq_self (by norm_num) (by norm_num; omega) (by norm_num; omega)
  have houter : wrapS 64 (s + (v : ℤ) % (e - s)) = s + (v : ℤ) % (e - s) :=
    wrapS_eq_self (by norm_num) (by norm_num; omega) (by norm_num; omega)
  refine ⟨?_, by omega, by omega⟩
  simp only [i64.from_range]
  rw [if_neg (by omega)]
  rw [hdu, hinner, houter]

/-- `isize` analogue of `i64_from_range_spec` (64-bit target). -/
theorem isize_from_range_spec (v : ℕ) (s e : ℤ) (h1 : -2 ^ 63 ≤ s) (h2 : s < e)
    (h3 : e < 2 ^ 63) (h4 : e - s < 2 ^ 63) :
    isize.from_range v s e = some (s + (v : ℤ) % (e - s)) ∧
    s ≤ s + (v : ℤ) % (e - s) ∧ s + (v : ℤ) % (e - s) < e := by
  have hr0 : 0 ≤ (v : ℤ) % (e - s) := Int.emod_nonneg _ (by omega)
  have hr1 : (v : ℤ) % (e - s) < e - s := Int.emod_lt_of_pos _ (by omega)
  have h5 : wrapS 64 (e - s) % 2 ^ 64 = e - s := by
    rw [wrapS_eq_self (by norm_num) (by norm_num; omega) (by norm_num; omega)]
    exact Int.emod_eq_of_lt (by omega) (by omega)
  have hdu : (((wrapS 64 (e - s) % 2 ^ 64).toNat : ℕ) : ℤ) = e - s := by omega
  have hinner : wrapS 64 ((v : ℤ) % (e - s)) = (v : ℤ) % (e - s) :=
    wrapS_eq_self (by norm_num) (by norm_num; omega) (by norm_num; omega)
  have houter : wrapS 64 (s + (v : ℤ) % (e - s)) = s + (v : ℤ) % (e - s) :=
    wrapS_eq_self (by norm_num) (by norm_num; omega) (by norm_num; omega)
  refine ⟨?_, by omega, by omega⟩
  simp only [isize.from_range]
  rw [if_neg (by omega)]
  rw [hdu, hinner, houter]

/-- For a valid `i32` range whose span fits in `i32`, `from_range` is exactly
`start + (hash mod (end - start))` and lies in `[start, end)`. -/
theorem i32_from_range_spec (v : ℕ) (s e : ℤ) (h1 : -2 ^ 31 ≤ s) (h2 : s < e)
    (h3 : e < 2 ^ 31) (h4 : e - s < 2 ^ 31) :
    i32.from_range v s e = some (s + (v : ℤ) % (e - s)) ∧
    s ≤ s + (v : ℤ) % (e - s) ∧ s + (v : ℤ) % (e - s) < e := by
  have hr0 : 0 ≤ (v : ℤ) % (e - s) := Int.emod_nonneg _ (by omega)
  have hr1 : (v : ℤ) % (e - s) < e - s := Int.emod_lt_of_pos _ (by omega)
  have h5 : wrapS 32 (e - s) % 2 ^ 64 = e - s := by
    rw [wrapS_eq_self (by norm_num) (by norm_num; omega) (by norm_num; omega)]
    exact Int.emod_eq_of_lt (by omega) (by omega)
  have hdu : (((wrapS 32 (e - s) % 2 ^ 64).toNat : ℕ) : ℤ) = e - s := by omega
  have hinner : wrapS 32 ((v : ℤ) % (e - s)) = (v : ℤ) % (e - s) :=
    wrapS_eq_self (by norm_num) (by norm_num; omega) (by norm_num; omega)
  have houter : wrapS 32 (s + (v : ℤ) % (e - s)) = s + (v : ℤ) % (e - s) :=
    wrapS_eq_self (by norm_num) (by norm_num; omega) (by norm_num; omega)
  refine ⟨?_, by omega, by omega⟩
  simp only [i32.from_range]
  rw [if_neg (by omega)]
  rw [hdu, hinner, houter]

/-- `i16` analogue of `i32_from_range_spec`. -/
theorem i16_from_range_spec (v : ℕ) (s e : ℤ) (h1 : -2 ^ 15 ≤ s) (h2 : s < e)
    (h3 : e < 2 ^ 15) (h4 : e - s < 2 ^ 15) :
    i16.from_range v s e = some (s + (v : ℤ) % (e - s)) ∧
    s ≤ s + (v : ℤ) % (e - s) ∧ s + (v : ℤ) % (e - s) < e := by
  have hr0 : 0 ≤ (v : ℤ) % (e - s) := Int.emod_nonneg _ (by omega)
  have hr1 : (v : ℤ) % (e - s) < e - s := Int.emod_lt_of_pos _ (by omega)
  have h5 : wrapS 16 (e - s) % 2 ^ 64 = e - s := by
    rw [wrapS_eq_self (by norm_num) (by norm_num; omega) (by norm_num; omega)]
    exact Int.emod_eq_of_lt (by omega) (by omega)
  have hdu : (((wrapS 16 (e - s) % 2 ^ 64).toNat : ℕ) : ℤ) = e - s := by omega
  have hinner : wrapS 16 ((v : ℤ) % (e - s)) = (v : ℤ) % (e - s) :=
    wrapS_eq_self (by norm_num) (by norm_num; omega) (by norm_num; omega)
  have houter : wrapS 16 (s + (v : ℤ) % (e - s)) = s + (v : ℤ) % (e - s) :=
    wrapS_eq_self (by norm_num) (by norm_num; omega) (by norm_num; omega)
  refine ⟨?_, by omega, by omega⟩
  simp only [i16.from_range]
  rw [if_neg (by omega)]
  rw [hdu, hinner, houter]

/-- `i8` analogue of `i32_from_range_spec`. -/
theorem i8_from_range_spec (v : ℕ) (s e : ℤ) (h1 : -2 ^ 7 ≤ s) (h2 : s < e)
    (h3 : e < 2 ^ 7) (h4 : e - s < 2 ^ 7) :
    i8.from_range v s e = some (s + (v : ℤ) % (e - s)) ∧
    s ≤ s + (v : ℤ) % (e - s) ∧ s + (v : ℤ) % (e - s) < e := by
  have hr0 : 0 ≤ (v : ℤ) % (e - s) := Int.emod_nonneg _ (by omega)
  have hr1 : (v : ℤ) % (e - s) < e - s := Int.emod_lt_of_pos _ (by omega)
  have h5 : wrapS 8 (e - s) % 2 ^ 64 = e - s := by
    rw [wrapS_eq_self (by norm_num) (by norm_num; omega) (by norm_num; omega)]
    exact Int.emod_eq_of_lt (by omega) (by omega)
  have hdu : (((wrapS 8 (e - s) % 2 ^ 64).toNat : ℕ) : ℤ) = e - s := by omega
  have hinner : wrapS 8 ((v : ℤ) % (e - s)) = (v : ℤ) % (e - s) :=
    wrapS_eq_self (by norm_num) (by norm_num; omega) (by norm_num; omega)
  have houter : wrapS 8 (s + (v : ℤ) % (e - s)) = s + (v : ℤ) % (e - s) :=
    wrapS_eq_self (by norm_num) (by norm_num; omega) (by norm_num; omega)
  refine ⟨?_, by omega, by omega⟩
  simp only [i8.from_range]
  rw [if_neg (by omega)]
  rw [hdu, hinner, houter]

/-- Fuel-bounded floor of the base-2 logarithm of a natural number
(`log2p fuel n = ⌊log2 n⌋` for `1 ≤ n < 2^fuel`; 0 for `n ≤ 1`). -/
def log2p : ℕ → ℕ → ℕ
  | 0, _ => 0
  | f + 1, n => if n ≤ 1 then 0 else log2p f (n / 2) + 1

/-- Floor of the base-2 logarithm of a positive rational (exact for numerator
and denominator below `2^2200`, far beyond every value arising here). -/
def qlog2 (q : ℚ) : ℤ :=
  let a : ℤ := log2p 2200 q.num.toNat
  let b : ℤ := log2p 2200 q.den
  if (2 : ℚ) ^ (a - b) ≤ q then a - b else a - b - 1

/-- IEEE-754 round-to-nearest-even at `prec` significant bits, exactly over
`ℚ` (covers the normal range; overflow and subnormals do not arise for the
values considered here).  `prec = 53` models `f64`, `prec = 24` models
`f32`. -/
def fround (prec : ℕ) (q : ℚ) : ℚ :=
  if q = 0 then 0
  else
    let e : ℤ := qlog2 |q| - prec + 1
    let m : ℚ := |q| * 2 ^ (-e)
    let fl : ℤ := ⌊m⌋
    let fr : ℚ := m - fl
    let mr : ℤ := if fr < 1 / 2 then fl else if 1 / 2 < fr then fl + 1
      else if fl % 2 = 0 then fl else fl + 1
    (if q < 0 then -1 else 1) * mr * 2 ^ e

/-- Exact model of `f64` addition: round the exact sum. -/
def f64.add (a b : ℚ) : ℚ := fround 53 (a + b)

/-- Exact model of `f64` subtraction. -/
def f64.sub (a b : ℚ) : ℚ := fround 53 (a - b)

/-- Exact model of `f64` multiplication. -/
def f64.mul (a b : ℚ) : ℚ := fround 53 (a * b)

/-- Exact model of `f64` division. -/
def f64.div (a b : ℚ) : ℚ := fround 53 (a / b)

/-- Exact model of the Rust `u64 as f64` conversion (round to nearest). -/
def f64.ofU64 (v : ℕ) : ℚ := fround 53 (v : ℚ)

/-- `FromRng for f64` (src/wyrand.rs:124-128): `v as f64 / u64::MAX as f64`. -/
def f64.from_rng (v : ℕ) : ℚ :=
  f64.div (f64.ofU64 v) (f64.ofU64 (2 ^ 64 - 1))

/-- `RangeRng for f64` (src/wyrand.rs:271-275):
`range.start + (v as f64 / u64::MAX as f64) * (range.end - range.start)`,
every operation an `f64` operation. -/
def f64.from_range (v : ℕ) (s e : ℚ) : ℚ :=
  f64.add s (f64.mul (f64.from_rng v) (f64.sub e s))

/-- Exact model of the Rust `f64 as f32` narrowing conversion. -/
def f32.ofF64 (q : ℚ) : ℚ := fround 24 q

/-- Exact model of `f32` addition. -/
def f32.add (a b : ℚ) : ℚ := fround 24 (a + b)

/-- Exact model of `f32` subtraction. -/
def f32.sub (a b : ℚ) : ℚ := fround 24 (a - b)

/-- Exact model of `f32` multiplication. -/
def f32.mul (a b : ℚ) : ℚ := fround 24 (a * b)

/-- `FromRng for f32` (src/wyrand.rs:130-134):
`(v as f64 / u64::MAX as f64) as f32`. -/
def f32.from_rng (v : ℕ) : ℚ := f32.ofF64 (f64.from_rng v)

/-- `RangeRng for f32` (src/wyrand.rs:277-281):
`range.start + (v as f64 / u64::MAX as f64) as f32 * (range.end - range.start)`:
the quotient is computed in `f64`, narrowed to `f32`, and the remaining
subtraction, multiplication and addition are `f32` operations. -/
def f32.from_range (v : ℕ) (s e : ℚ) : ℚ :=
  f32.add s (f32.mul (f32.from_rng v) (f32.sub e s))

/-- Rounding `u64::MAX` to `f64` gives exactly `2^64`. -/
theorem f64_ofU64_max : f64.ofU64 (2 ^ 64 - 1) = 2 ^ 64 := by
  have h1 : qlog2 |((2 ^ 64 - 1 : ℕ) : ℚ)| = 63 := by
    have ha : log2p 2200 (((2 ^ 64 - 1 : ℕ) : ℚ)).num.toNat = 63 := by norm_num; decide
    have hb : log2p 2200 (((2 ^ 64 - 1 : ℕ) : ℚ)).den = 0 := by norm_num; decide
    rw [show |((2 ^ 64 - 1 : ℕ) : ℚ)| = ((2 ^ 64 - 1 : ℕ) : ℚ) by norm_num]
    unfold qlog2
    rw [ha, hb]
    norm_num
  unfold f64.ofU64 fround
  rw [h1]
  norm_num

/-- One is an `f64` fixed point of rounding. -/
theorem fround53_one : fround 53 (1 : ℚ) = 1 := by
  have h1 : qlog2 |(1 : ℚ)| = 0 := by
    have ha : log2p 2200 ((1 : ℚ)).num.toNat = 0 := by norm_num; decide
    have hb : log2p 2200 ((1 : ℚ)).den = 0 := by norm_num; decide
    rw [show |(1 : ℚ)| = (1 : ℚ) by norm_num]
    unfold qlog2
    rw [ha, hb]
    norm_num
  unfold fround
  rw [h1]
  norm_num

/-- C1 (amended): for every integer `RangeRng` type, every range with
`end > start` whose bounds are values of the type and (for signed types)
whose span `end - start` is representable in the type, and every hash,
`from_range` succeeds and its result `r` satisfies `start <= r < end`.
(The floating-point half of the original claim is false: see the
counterexample, where the `f64` result equals `end` at `hash = u64::MAX`.) -/
theorem c1_integer_range_containment :
    (∀ v s e : ℕ, s < e → e < 2 ^ 64 →
      ∃ r, u64.from_range v s e = some r ∧ s ≤ r ∧ r < e) ∧
    (∀ v s e : ℕ, s < e → e < 2 ^ 64 →
      ∃ r, usize.from_range v s e = some r ∧ s ≤ r ∧ r < e) ∧
    (∀ v s e : ℕ, s < e → e < 2 ^ 32 →
      ∃ r, u32.from_range v s e = some r ∧ s ≤ r ∧ r < e) ∧
    (∀ v s e : ℕ, s < e → e < 2 ^ 16 →
      ∃ r, u16.from_range v s e = some r ∧ s ≤ r ∧ r < e) ∧
    (∀ v s e : ℕ, s < e → e < 2 ^ 8 →
      ∃ r, u8.from_range v s e = some r ∧ s ≤ r ∧ r < e) ∧
    (∀ (v : ℕ) (s e : ℤ), -2 ^ 63 ≤ s → s < e → e < 2 ^ 63 → e - s < 2 ^ 63 →
      ∃ r, i64.from_range v s e = some r ∧ s ≤ r ∧ r < e) ∧
    (∀ (v : ℕ) (s e : ℤ), -2 ^ 63 ≤ s → s < e → e < 2 ^ 63 → e - s < 2 ^ 63 →
      ∃ r, isize.from_range v s e = some r ∧ s ≤ r ∧ r < e) ∧
    (∀ (v : ℕ) (s e : ℤ), -2 ^ 31 ≤ s → s < e → e < 2 ^ 31 → e - s < 2 ^ 31 →
      ∃ r, i32.from_range v s e = some r ∧ s ≤ r ∧ r < e) ∧
    (∀ (v : ℕ) (s e : ℤ), -2 ^ 15 ≤ s → s < e → e < 2 ^ 15 → e - s < 2 ^ 15 →
      ∃ r, i16.from_range v s e = some r ∧ s ≤ r ∧ r < e) ∧
    (∀ (v : ℕ) (s e : ℤ), -2 ^ 7 ≤ s → s < e → e < 2 ^ 7 → e - s < 2 ^ 7 →
      ∃ r, i8.from_range v s e = some r ∧ s ≤ r ∧ r < e) :=
  ⟨fun v s e h1 h2 => ⟨_, u64_from_range_spec v s e h1 h2⟩,
   fun v s e h1 h2 => ⟨_, usize_from_range_spec v s e h1 h2⟩,
   fun v s e h1 h2 => ⟨_, u32_from_range_spec v s e h1 h2⟩,
   fun v s e h1 h2 => ⟨_, u16_from_range_spec v s e h1 h2⟩,
   fun v s e h1 h2 => ⟨_, u8_from_range_spec v s e h1 h2⟩,
   fun v s e h1 h2 h3 h4 => ⟨_, i64_from_range_spec v s e h1 h2 h3 h4⟩,
   fun v s e h1 h2 h3 h4 => ⟨_, isize_from_range_spec v s e h1 h2 h3 h4⟩,
   fun v s e h1 h2 h3 h4 => ⟨_, i32_from_range_spec v s e h1 h2 h3 h4⟩,
   fun v s e h1 h2 h3 h4 => ⟨_, i16_from_range_spec v s e h1 h2 h3 h4⟩,
   fun v s e h1 h2 h3 h4 => ⟨_, i8_from_range_spec v s e h1 h2 h3 h4⟩⟩

/-- Concrete instances of `c1_integer_range_containment`. -/
theorem c1_integer_range_containment_witness :
    (∃ r, u64.from_range 7 1 5 = some r ∧ 1 ≤ r ∧ r < 5) ∧
    (∃ r, usize.from_range 7 1 5 = some r ∧ 1 ≤ r ∧ r < 5) ∧
    (∃ r, u32.from_range 7 1 5 = some r ∧ 1 ≤ r ∧ r < 5) ∧
    (∃ r, u16.from_range 7 1 5 = some r ∧ 1 ≤ r ∧ r < 5) ∧
    (∃ r, u8.from_range 7 1 5 = some r ∧ 1 ≤ r ∧ r < 5) ∧
    (∃ r, i64.from_range 7 (-2) 5 = some r ∧ -2 ≤ r ∧ r < 5) ∧
    (∃ r, isize.from_range 7 (-2) 5 = some r ∧ -2 ≤ r ∧ r < 5) ∧
    (∃ r, i32.from_range 7 (-2) 5 = some r ∧ -2 ≤ r ∧ r < 5) ∧
    (∃ r, i16.from_range 7 (-2) 5 = some r ∧ -2 ≤ r ∧ r < 5) ∧
    (∃ r, i8.from_range 7 (-2) 5 = some r ∧ -2 ≤ r ∧ r < 5) :=
  ⟨c1_integer_range_containment.1 7 1 5 (by norm_num) (by norm_num),
   c1_integer_range_containment.2.1 7 1 5 (by norm_num) (by norm_num),
   c1_integer_range_containment.2.2.1 7 1 5 (by norm_num) (by norm_num),
   c1_integer_range_containment.2.2.2.1 7 1 5 (by norm_num) (by norm_num),
   c1_integer_range_containment.2.2.2.2.1 7 1 5 (by norm_num) (by norm_num),
   c1_integer_range_containment.2.2.2.2.2.1 7 (-2) 5
     (by norm_num) (by norm_num) (by norm_num) (by norm_num),
   c1_integer_range_containment.2.2.2.2.2.2.1 7 (-2) 5
     (by norm_num) (by norm_num) (by norm_num) (by norm_num),
   c1_integer_range_containment.2.2.2.2.2.2.2.1 7 (-2) 5
     (by norm_num) (by norm_num) (by norm_num) (by norm_num),
   c1_integer_range_containment.2.2.2.2.2.2.2.2.1 7 (-2) 5
     (by norm_num) (by norm_num) (by norm_num) (by norm_num),
   c1_integer_range_containment.2.2.2.2.2.2.2.2.2 7 (-2) 5
     (by norm_num) (by norm_num) (by norm_num) (by norm_num)⟩

/-- C1's floating-point half is false: at `hash = u64::MAX` on the range
`0.0 .. 1.0`, the `f64` result is exactly `1`, which is not strictly below
the end of the range (`u64::MAX` rounds to `2^64` when converted to `f64`,
so the quotient `hash / u64::MAX` is exactly `1.0`). -/
theorem c1_float_counterexample :
    f64.from_range (2 ^ 64 - 1) 0 1 = 1 ∧ ¬ f64.from_range (2 ^ 64 - 1) 0 1 < 1 := by
  have key : f64.from_range (2 ^ 64 - 1) 0 1 = 1 := by
    unfold f64.from_range f64.from_rng f64.add f64.mul f64.div f64.sub
    rw [f64_ofU64_max]
    norm_num [fround53_one]
  exact ⟨key, by rw [key]; exact lt_irrefl 1⟩

/-- C2 (amended): an integer ranged draw fails (Rust: panics on `% 0`)
exactly when `end == start`; a reversed signed range (`end < start`) does
not fail but silently returns a value, and the floating-point instances
never fail for any `end <= start`, silently returning a value (for
`end == start` the rounded `start` itself). -/
theorem c2_invalid_range_behaviour :
    (∀ v s : ℕ, u64.from_range v s s = none) ∧
    (∀ v s : ℕ, usize.from_range v s s = none) ∧
    (∀ v s : ℕ, u32.from_range v s s = none) ∧
    (∀ v s : ℕ, u16.from_range v s s = none) ∧
    (∀ v s : ℕ, u8.from_range v s s = none) ∧
    (∀ (v : ℕ) (s : ℤ), i64.from_range v s s = none) ∧
    (∀ (v : ℕ) (s : ℤ), isize.from_range v s s = none) ∧
    (∀ (v : ℕ) (s : ℤ), i32.from_range v s s = none) ∧
    (∀ (v : ℕ) (s : ℤ), i16.from_range v s s = none) ∧
    (∀ (v : ℕ) (s : ℤ), i8.from_range v s s = none) ∧
    (∀ (v : ℕ) (s e : ℤ), -2 ^ 63 ≤ e → e < s → s < 2 ^ 63 → s - e < 2 ^ 63 →
      ∃ r, i64.from_range v s e = some r) ∧
    (∀ (v : ℕ) (s : ℚ), f64.from_range v s s = fround 53 s) ∧
    (∀ (v : ℕ) (s : ℚ), f32.from_range v s s = fround 24 s) := by
  have h0 : fround 53 (0 : ℚ) = 0 := by unfold fround; simp
  have h0' : fround 24 (0 : ℚ) = 0 := by unfold fround; simp
  refine ⟨?_, ?_, ?_, ?_, ?_, ?_, ?_, ?_, ?_, ?_, ?_, ?_, ?_⟩
  · intro v s; simp only [u64.from_range, wsub64]; rw [if_pos (by omega)]
  · intro v s; simp only [usize.from_range, wsub64]; rw [if_pos (by omega)]
  · intro v s; simp only [u32.from_range, wsub64]; rw [if_pos (by omega)]
  · intro v s; simp only [u16.from_range, wsub64]; rw [if_pos (by omega)]
  · intro v s; simp only [u8.from_range, wsub64]; rw [if_pos (by omega)]
  · intro v s; simp only [i64.from_range, sub_self, wrapS]; norm_num
  · intro v s; simp only [isize.from_range, sub_self, wrapS]; norm_num
  · intro v s; simp only [i32.from_range, sub_self, wrapS]; norm_num
  · intro v s; simp only [i16.from_range, sub_self, wrapS]; norm_num
  · intro v s; simp only [i8.from_range, sub_self, wrapS]; norm_num
  · intro v s e h1 h2 h3 h4
    simp only [i64.from_range]
    rw [if_neg ?hne]
    case hne => simp only [wrapS]; norm_num; omega
    exact ⟨_, rfl⟩
  · intro v s
    unfold f64.from_range f64.add f64.mul f64.sub
    rw [sub_self, h0, mul_zero, h0, add_zero]
  · intro v s
    unfold f32.from_range f32.add f32.mul f32.sub
    rw [sub_self, h0', mul_zero, h0', add_zero]

/-- Concrete instance of the reversed-signed-range conjunct of
`c2_invalid_range_behaviour` (and of the failing conjuncts). -/
theorem c2_invalid_range_behaviour_witness :
    u64.from_range 9 4 4 = none ∧ i64.from_range 9 4 4 = none ∧
    (∃ r, i64.from_range 9 4 (-3) = some r) :=
  ⟨c2_invalid_range_behaviour.1 9 4,
   c2_invalid_range_behaviour.2.2.2.2.2.1 9 4,
   c2_invalid_range_behaviour.2.2.2.2.2.2.2.2.2.2.1 9 4 (-3)
     (by norm_num) (by norm_num) (by norm_num) (by norm_num)⟩

/-- C2 is false for floating point: with `end == start` (here `0.0 .. 0.0`)
the `f64` instance does not fail or panic along any path; it silently
returns the value `0`. -/
theorem c2_float_counterexample : f64.from_range 0 0 0 = 0 := by
  have h0 : fround 53 (0 : ℚ) = 0 := by unfold fround; simp
  unfold f64.from_range f64.add f64.mul f64.sub
  rw [sub_self, h0, mul_zero, h0, add_zero, h0]

/-- C4 (amended): for the unsigned integer types the span is computed in a
64-bit unsigned intermediate after widening each bound, and for every range
with `end > start` (bounds in the type's range) the result is exactly
`start + (hash mod (end - start))`.  For the signed types the difference is
computed in the signed type itself and only then cast to `u64`, so the
formula holds only when the span `end - start` is representable in the
signed type (see the counterexample for what happens otherwise). -/
theorem c4_integer_range_formula :
    (∀ v s e : ℕ, s < e → e < 2 ^ 64 →
      u64.from_range v s e = some (s + v % (e - s))) ∧
    (∀ v s e : ℕ, s < e → e < 2 ^ 64 →
      usize.from_range v s e = some (s + v % (e - s))) ∧
    (∀ v s e : ℕ, s < e → e < 2 ^ 32 →
      u32.from_range v s e = some (s + v % (e - s))) ∧
    (∀ v s e : ℕ, s < e → e < 2 ^ 16 →
      u16.from_range v s e = some (s + v % (e - s))) ∧
    (∀ v s e : ℕ, s < e → e < 2 ^ 8 →
      u8.from_range v s e = some (s + v % (e - s))) ∧
    (∀ (v : ℕ) (s e : ℤ), -2 ^ 63 ≤ s → s < e → e < 2 ^ 63 → e - s < 2 ^ 63 →
      i64.from_range v s e = some (s + (v : ℤ) % (e - s))) ∧
    (∀ (v : ℕ) (s e : ℤ), -2 ^ 63 ≤ s → s < e → e < 2 ^ 63 → e - s < 2 ^ 63 →
      isize.from_range v s e = some (s + (v : ℤ) % (e - s))) ∧
    (∀ (v : ℕ) (s e : ℤ), -2 ^ 31 ≤ s → s < e → e < 2 ^ 31 → e - s < 2 ^ 31 →
      i32.from_range v s e = some (s + (v : ℤ) % (e - s))) ∧
    (∀ (v : ℕ) (s e : ℤ), -2 ^ 15 ≤ s → s < e → e < 2 ^ 15 → e - s < 2 ^ 15 →
      i16.from_range v s e = some (s + (v : ℤ) % (e - s))) ∧
    (∀ (v : ℕ) (s e : ℤ), -2 ^ 7 ≤ s → s < e → e < 2 ^ 7 → e - s < 2 ^ 7 →
      i8.from_range v s e = some (s + (v : ℤ) % (e - s))) :=
  ⟨fun v s e h1 h2 => (u64_from_range_spec v s e h1 h2).1,
   fun v s e h1 h2 => (usize_from_range_spec v s e h1 h2).1,
   fun v s e h1 h2 => (u32_from_range_spec v s e h1 h2).1,
   fun v s e h1 h2 => (u16_from_range_spec v s e h1 h2).1,
   fun v s e h1 h2 => (u8_from_range_spec v s e h1 h2).1,
   fun v s e h1 h2 h3 h4 => (i64_from_range_spec v s e h1 h2 h3 h4).1,
   fun v s e h1 h2 h3 h4 => (isize_from_range_spec v s e h1 h2 h3 h4).1,
   fun v s e h1 h2 h3 h4 => (i32_from_range_spec v s e h1 h2 h3 h4).1,
   fun v s e h1 h2 h3 h4 => (i16_from_range_spec v s e h1 h2 h3 h4).1,
   fun v s e h1 h2 h3 h4 => (i8_from_range_spec v s e h1 h2 h3 h4).1⟩

/-- Concrete instances of `c4_integer_range_formula`. -/
theorem c4_integer_range_formula_witness :
    u64.from_range 13 2 7 = some (2 + 13 % 5) ∧
    i32.from_range 13 (-2) 7 = some (-2 + (13 : ℤ) % 9) :=
  ⟨c4_integer_range_formula.1 13 2 7 (by norm_num) (by norm_num),
   c4_integer_range_formula.2.2.2.2.2.2.2.1 13 (-2) 7
     (by norm_num) (by norm_num) (by norm_num) (by norm_num)⟩

/-- C4 is false as stated for signed types: the span of the `i32` range
`i32::MIN .. i32::MAX` does not fit in `i32`, the subtraction wraps to `-1`,
and the sign-extending `as u64` cast turns it into `2^64 - 1` instead of the
true span `2^32 - 1`.  At `hash = 2^32 - 1` the code returns `i32::MAX`
while `start + (hash mod (end - start))` is `i32::MIN` (the returned value
is not even inside the requested range). -/
theorem c4_signed_span_counterexample :
    i32.from_range (2 ^ 32 - 1) (-2 ^ 31) (2 ^ 31 - 1) = some (2 ^ 31 - 1) ∧
    (-2 ^ 31 : ℤ) + ((2 ^ 32 - 1 : ℕ) : ℤ) % ((2 ^ 31 - 1) - -2 ^ 31) = -2 ^ 31 ∧
    ((2 ^ 31 - 1 : ℤ) = -2 ^ 31 → False) := by
  refine ⟨by decide, by decide, by decide⟩

/-- Rust `slice.swap(i, j)` (panics, i.e. `none`, when an index is out of
bounds; swapping an index with itself leaves the list unchanged). -/
def listSwap? {α : Type} (l : List α) (i j : ℕ) : Option (List α) :=
  match l[i]?, l[j]? with
  | some a, some b => some ((l.set i b).set j a)
  | _, _ => none

/-- One iteration of the loop body of `WyRand::shuffle` at index `i`:
`slice.swap(i, self.next_in_range(0..slice.len()))`.  The ranged draw is
`usize::from_range` applied to the raw hash of the advanced state. -/
def shuffleStep {α : Type} (st : ℕ) (l : List α) (i : ℕ) : Option (ℕ × List α) :=
  (usize.from_range (wnext st).2 0 l.length).bind fun j =>
    (listSwap? l i j).map fun l2 => ((wnext st).1, l2)

/-- The loop of `WyRand::shuffle`: run the body at indices `i, i+1, ...`
for `fuel` further iterations. -/
def shuffleAux {α : Type} (st : ℕ) (l : List α) (i : ℕ) : ℕ → Option (ℕ × List α)
  | 0 => some (st, l)
  | fuel + 1 => (shuffleStep st l i).bind fun p => shuffleAux p.1 p.2 (i + 1) fuel

/-- `WyRand::shuffle` (src/wyrand.rs:53-57):
`for i in 0..slice.len() { slice.swap(i, self.next_in_range(0..slice.len())) }`.
Returns the final generator state and the shuffled list (`none` models a
panic, which the proofs show never happens). -/
def shuffle {α : Type} (st : ℕ) (l : List α) : Option (ℕ × List α) :=
  shuffleAux st l 0 l.length

/-- `Permutation::DEFAULT` (src/perm.rs:16-24): 512 bytes with
`result[i] = (i & 255) as u8`. -/
def Permutation.DEFAULT : List ℕ := (List.range 512).map (fun i => i &&& 255)

/-- `Permutation::with_seed` (src/perm.rs:42-50): shuffle the lower 256
bytes of the default table with a fresh `WyRand::with_seed(seed)`, then
copy the lower 256 bytes over the upper 256. -/
def Permutation.with_seed (seed : ℕ) : Option (List ℕ) :=
  (shuffle seed (Permutation.DEFAULT.take 256)).map fun p => p.2 ++ p.2

/-- `Permutation::from_bytes` (src/perm.rs:63-68): copy the 256 caller
bytes into both halves of the 512-byte table. -/
def Permutation.from_bytes (b : List ℕ) : List ℕ := b ++ b

/-- `Permutation::from_bytes_padded` (src/perm.rs:76-78): store the 512
caller bytes verbatim. -/
def Permutation.from_bytes_padded (p : List ℕ) : List ℕ := p

/-- `Permutation::as_bytes` (src/perm.rs:58-60): the lower 256 bytes. -/
def Permutation.as_bytes (t : List ℕ) : List ℕ := t.take 256

/-- `Permutation::as_bytes_padded` (src/perm.rs:71-73): the full table. -/
def Permutation.as_bytes_padded (t : List ℕ) : List ℕ := t

/-- `PermMix for u32` (src/perm.rs:180-188): split the value into its three
low bytes `a, b, c` and fold `perm[a + perm[b + perm[c]]]`.  Out-of-bounds
indexing (a Rust panic) is `none`. -/
def u32.perm_mix (t : List ℕ) (u : ℕ) : Option ℕ :=
  let a := u &&& 0xFF
  let b := (u >>> 8) &&& 0xFF
  let c := (u >>> 16) &&& 0xFF
  (t[c]?).bind fun pc => (t[b + pc]?).bind fun pb => t[a + pb]?

/-- `PermMix for u64` (src/perm.rs:156-160): `u32::perm_mix(self as u32)`;
the cast keeps the low 32 bits. -/
def u64.perm_mix (t : List ℕ) (v : ℕ) : Option ℕ := u32.perm_mix t (v % 2 ^ 32)

/-- `PermMix for usize` (src/perm.rs:168-172), as for `u64`. -/
def usize.perm_mix (t : List ℕ) (v : ℕ) : Option ℕ := u32.perm_mix t (v % 2 ^ 32)

/-- `PermMix for i64` (src/perm.rs:162-166): `u32::perm_mix(self as u32)`;
the cast keeps the low 32 bits of the two's-complement pattern, i.e.
`x mod 2^32`. -/
def i64.perm_mix (t : List ℕ) (x : ℤ) : Option ℕ := u32.perm_mix t ((x % 2 ^ 32).toNat)

/-- `PermMix for isize` (src/perm.rs:174-178), as for `i64`. -/
def isize.perm_mix (t : List ℕ) (x : ℤ) : Option ℕ := u32.perm_mix t ((x % 2 ^ 32).toNat)

/-- `PermMix for i32` (src/perm.rs:190-194): `u32::perm_mix(self as u32)`. -/
def i32.perm_mix (t : List ℕ) (x : ℤ) : Option ℕ := u32.perm_mix t ((x % 2 ^ 32).toNat)

/-- `PermMix for u16` (src/perm.rs:196-201): with little-endian bytes
`[a, b]`, `perm[b + perm[a]]`. -/
def u16.perm_mix (t : List ℕ) (u : ℕ) : Option ℕ :=
  let a := u &&& 0xFF
  let b := (u >>> 8) &&& 0xFF
  (t[a]?).bind fun pa => t[b + pa]?

/-- `PermMix for i16` (src/perm.rs:203-208), on the 16-bit two's-complement
pattern `x mod 2^16`. -/
def i16.perm_mix (t : List ℕ) (x : ℤ) : Option ℕ := u16.perm_mix t ((x % 2 ^ 16).toNat)

/-- `PermMix for u8` (src/perm.rs:210-214): `perm[(self & 255) as usize]`. -/
def u8.perm_mix (t : List ℕ) (u : ℕ) : Option ℕ := t[u &&& 0xFF]?

/-- `PermMix for i8` (src/perm.rs:216-220): `perm[self as usize & 255]`;
the sign-extending cast followed by `& 255` keeps `x mod 2^8`. -/
def i8.perm_mix (t : List ℕ) (x : ℤ) : Option ℕ := t[(x % 2 ^ 8).toNat &&& 0xFF]?

/-- Setting index `i` (which holds `a`) to `b` exchanges `a` for `b` in the
underlying multiset. -/
theorem set_cons_multiset {α : Type} (l : List α) (i : ℕ) (a b : α)
    (h : l[i]? = some a) :
    a ::ₘ (↑(l.set i b) : Multiset α) = b ::ₘ (↑l : Multiset α) := by
  induction l generalizing i with
  | nil => simp at h
  | cons x xs ih =>
    cases i with
    | zero =>
      simp only [List.getElem?_cons_zero, Option.some.injEq] at h
      subst h
      simp only [List.set_cons_zero, ← Multiset.cons_coe]
      exact Multiset.cons_swap _ _ _
    | succ n =>
      simp only [List.getElem?_cons_succ] at h
      simp only [List.set_cons_succ, ← Multiset.cons_coe]
      rw [Multiset.cons_swap a x, Multiset.cons_swap b x]
      rw [ih n h]

/-- A double `set` realising a swap preserves the multiset of elements. -/
theorem swap_multiset_eq {α : Type} (l : List α) (i j : ℕ) (a b : α)
    (ha : l[i]? = some a) (hb : l[j]? = some b) :
    (↑((l.set i b).set j a) : Multiset α) = (↑l : Multiset α) := by
  have hb' : (l.set i b)[j]? = some b := by
    by_cases hij : i = j
    · subst hij
      have hi : i < l.length := (List.getElem?_eq_some_iff.mp ha).1
      simp [List.getElem?_set_self (by simpa using hi)]
    · rw [List.getElem?_set_ne hij]
      exact hb
  have A1 := set_cons_multiset (l.set i b) j b a hb'
  have A2 := set_cons_multiset l i a b ha
  have key : b ::ₘ (↑((l.set i b).set j a) : Multiset α) = b ::ₘ (↑l : Multiset α) := by
    rw [A1, A2]
  exact (Multiset.cons_inj_right b).mp key

/-- In-bounds swaps succeed and preserve the multiset and the length. -/
theorem listSwap?_spec {α : Type} (l : List α) (i j : ℕ)
    (hi : i < l.length) (hj : j < l.length) :
    ∃ l2, listSwap? l i j = some l2 ∧
      (↑l2 : Multiset α) = (↑l : Multiset α) ∧ l2.length = l.length := by
  have ha : l[i]? = some l[i] := List.getElem?_eq_getElem hi
  have hb : l[j]? = some l[j] := List.getElem?_eq_getElem hj
  refine ⟨(l.set i l[j]).set j l[i], ?_, swap_multiset_eq l i j _ _ ha hb, by simp⟩
  simp only [listSwap?, ha, hb]

/-- Loop invariant of `WyRand::shuffle`: starting at index `i` with `fuel`
iterations left (`i + fuel = len`), the loop never panics, preserves the
multiset of elements and the length, and advances the generator state once
per iteration. -/
theorem shuffleAux_spec {α : Type} (fuel : ℕ) :
    ∀ (st : ℕ) (l : List α) (i : ℕ), i + fuel = l.length → l.length < 2 ^ 64 →
    ∃ st2 l2, shuffleAux st l i fuel = some (st2, l2) ∧
      (↑l2 : Multiset α) = (↑l : Multiset α) ∧ l2.length = l.length ∧
      st2 = advance^[fuel] st := by
  induction fuel with
  | zero =>
    intro st l i _ _
    exact ⟨st, l, rfl, rfl, rfl, rfl⟩
  | succ n ih =>
    intro st l i h1 h2
    have hi : i < l.length := by omega
    have hlen0 : 0 < l.length := by omega
    have hdraw' : usize.from_range (wnext st).2 0 l.length
        = some ((wnext st).2 % l.length) := by
      simpa using (usize_from_range_spec (wnext st).2 0 l.length hlen0 h2).1
    have hjlt : (wnext st).2 % l.length < l.length := Nat.mod_lt _ hlen0
    obtain ⟨l2, hswap, hmult, hlen⟩ := listSwap?_spec l i _ hi hjlt
    have hstep : shuffleStep st l i = some ((wnext st).1, l2) := by
      rw [shuffleStep, hdraw', Option.some_bind, hswap, Option.map_some']
    obtain ⟨st2, l3, heq, hm, hl, hst⟩ :=
      ih (wnext st).1 l2 (i + 1) (by omega) (by omega)
    refine ⟨st2, l3, ?_, hm.trans hmult, hl.trans hlen, ?_⟩
    · rw [show shuffleAux st l i (n + 1) = (shuffleStep st l i).bind
        (fun p => shuffleAux p.1 p.2 (i + 1) n) from rfl, hstep, Option.some_bind]
      exact heq
    · rw [hst, Function.iterate_succ_apply]
      rfl

/-- `WyRand::shuffle` never panics, permutes the elements, keeps the length,
and consumes exactly one draw (one state advance) per element. -/
theorem shuffle_spec {α : Type} (st : ℕ) (l : List α) (hlen : l.length < 2 ^ 64) :
    ∃ st2 l2, shuffle st l = some (st2, l2) ∧
      (↑l2 : Multiset α) = (↑l : Multiset α) ∧ l2.length = l.length ∧
      st2 = advance^[l.length] st :=
  shuffleAux_spec l.length st l 0 (by omega) hlen

/-- C6: `WyRand::shuffle` permutes the slice in place — the multiset of
elements after the call equals the multiset before (equivalently, the result
is a permutation of the input); slices of length 0 or 1 come back unchanged;
and the generator consumes exactly one ranged draw (one state advance) per
element of the slice. -/
theorem c6_shuffle_permutes {α : Type} (st : ℕ) (l : List α)
    (hlen : l.length < 2 ^ 64) :
    ∃ st2 l2, shuffle st l = some (st2, l2) ∧ List.Perm l2 l ∧
      (↑l2 : Multiset α) = (↑l : Multiset α) ∧
      (l.length ≤ 1 → l2 = l) ∧ st2 = advance^[l.length] st := by
  obtain ⟨st2, l2, heq, hm, hl, hst⟩ := shuffle_spec st l hlen
  have hperm : List.Perm l2 l := Multiset.coe_eq_coe.mp hm
  refine ⟨st2, l2, heq, hperm, hm, ?_, hst⟩
  intro hshort
  cases l with
  | nil => exact hperm.eq_nil
  | cons a t =>
    cases t with
    | nil => exact List.perm_singleton.mp hperm
    | cons b t2 => simp at hshort

/-- Concrete instance of `c6_shuffle_permutes`. -/
theorem c6_shuffle_permutes_witness :
    ∃ st2 l2, shuffle 0 [10, 20, 30] = some (st2, l2) ∧ List.Perm l2 [10, 20, 30] ∧
      (↑l2 : Multiset ℕ) = (↑[10, 20, 30] : Multiset ℕ) ∧
      ([10, 20, 30].length ≤ 1 → l2 = [10, 20, 30]) ∧
      st2 = advance^[[10, 20, 30].length] 0 :=
  c6_shuffle_permutes 0 [10, 20, 30] (by norm_num)

/-- The lower 256 bytes of the default table are the identity `0, …, 255`. -/
theorem default_take_256 : Permutation.DEFAULT.take 256 = List.range 256 := by
  have hmask : ∀ i ∈ List.range 256, i &&& 255 = i := by
    intro i hi
    have h8 := Nat.and_pow_two_sub_one_of_lt_two_pow (x := i) (n := 8)
      (by simpa using List.mem_range.mp hi)
    simpa using h8
  rw [Permutation.DEFAULT, ← List.map_take, List.take_range]
  norm_num
  rw [List.map_congr_left hmask]
  simp

/-- C5: for every seed, the first 256 bytes of `Permutation::with_seed`
(what `as_bytes` returns) are a permutation of `0, …, 255`: every byte value
occurs exactly as often as in `0, …, 255`, i.e. exactly once. -/
theorem c5_with_seed_is_permutation (seed : ℕ) :
    ∃ tbl, Permutation.with_seed seed = some tbl ∧
      List.Perm (Permutation.as_bytes tbl) (List.range 256) ∧
      ∀ v : ℕ, (Permutation.as_bytes tbl).count v = (List.range 256).count v := by
  obtain ⟨st2, l2, heq, hm, hl, hst⟩ :=
    shuffle_spec seed (Permutation.DEFAULT.take 256)
      (by rw [default_take_256]; simp)
  have h256 : l2.length = 256 := by rw [hl, default_take_256]; simp
  have hperm : List.Perm l2 (List.range 256) := by
    rw [default_take_256] at hm
    exact Multiset.coe_eq_coe.mp hm
  refine ⟨l2 ++ l2, ?_, ?_, ?_⟩
  · rw [Permutation.with_seed, heq, Option.map_some']
  · rw [Permutation.as_bytes, List.take_left' h256]
    exact hperm
  · intro v
    rw [Permutation.as_bytes, List.take_left' h256]
    exact hperm.count_eq v

/-- Concrete instance of `c5_with_seed_is_permutation` at seed 1. -/
theorem c5_with_seed_is_permutation_witness :
    ∃ tbl, Permutation.with_seed 1 = some tbl ∧
      List.Perm (Permutation.as_bytes tbl) (List.range 256) ∧
      ∀ v : ℕ, (Permutation.as_bytes tbl).count v = (List.range 256).count v :=
  c5_with_seed_is_permutation 1

/-- C3 (amended): the tables built by `with_seed` (hence also by
`with_local_seed` and `with_system_seed`, which delegate to it) and by
`from_bytes` satisfy the mirrored-padding invariant: the lower 256 bytes
equal the upper 256 bytes.  (`from_bytes_padded` does not enforce it — see
the counterexample.) -/
theorem c3_mirrored_padding :
    (∀ seed : ℕ, ∃ tbl, Permutation.with_seed seed = some tbl ∧
      tbl.length = 512 ∧ tbl.take 256 = tbl.drop 256) ∧
    (∀ b : List ℕ, b.length = 256 →
      (Permutation.from_bytes b).take 256 = (Permutation.from_bytes b).drop 256) := by
  constructor
  · intro seed
    obtain ⟨st2, l2, heq, hm, hl, hst⟩ :=
      shuffle_spec seed (Permutation.DEFAULT.take 256)
        (by rw [default_take_256]; simp)
    have h256 : l2.length = 256 := by rw [hl, default_take_256]; simp
    refine ⟨l2 ++ l2, ?_, ?_, ?_⟩
    · rw [Permutation.with_seed, heq, Option.map_some']
    · simp [h256]
    · rw [List.take_left' h256, List.drop_left' h256]
  · intro b hb
    rw [Permutation.from_bytes, List.take_left' hb, List.drop_left' hb]

/-- Concrete instances of `c3_mirrored_padding`. -/
theorem c3_mirrored_padding_witness :
    (∃ tbl, Permutation.with_seed 0 = some tbl ∧
      tbl.length = 512 ∧ tbl.take 256 = tbl.drop 256) ∧
    (Permutation.from_bytes (List.replicate 256 0)).take 256 =
      (Permutation.from_bytes (List.replicate 256 0)).drop 256 :=
  ⟨c3_mirrored_padding.1 0, c3_mirrored_padding.2 (List.replicate 256 0) (by rw [List.length_replicate])⟩

/-- C3 is false for `from_bytes_padded`: it stores the caller's 512 bytes
verbatim, so a table whose byte 0 differs from byte 256 violates the
mirrored-padding invariant. -/
theorem c3_from_bytes_padded_counterexample :
    (Permutation.from_bytes_padded (1 :: List.replicate 511 0)).getD 0 0 = 1 ∧
    (Permutation.from_bytes_padded (1 :: List.replicate 511 0)).getD 256 0 = 0 ∧
    (1 : ℕ) ≠ 0 := by
  refine ⟨rfl, ?_, by decide⟩
  rw [Permutation.from_bytes_padded]
  rw [show (256 : ℕ) = 255 + 1 by norm_num, List.getD_cons_succ]
  rw [List.getD_eq_getElem?_getD, List.getElem?_replicate]
  norm_num

/-- C10: `from_bytes`/`as_bytes` and `from_bytes_padded`/`as_bytes_padded`
round-trip the caller-supplied bytes unchanged and unvalidated. -/
theorem c10_bytes_roundtrip :
    (∀ b : List ℕ, b.length = 256 →
      Permutation.as_bytes (Permutation.from_bytes b) = b) ∧
    (∀ p : List ℕ, Permutation.as_bytes_padded (Permutation.from_bytes_padded p) = p) :=
  ⟨fun b hb => by
      rw [Permutation.as_bytes, Permutation.from_bytes, List.take_left' hb],
   fun _ => rfl⟩

/-- Concrete instance of `c10_bytes_roundtrip`. -/
theorem c10_bytes_roundtrip_witness :
    Permutation.as_bytes (Permutation.from_bytes (List.replicate 256 3)) =
      List.replicate 256 3 ∧
    Permutation.as_bytes_padded (Permutation.from_bytes_padded [7]) = [7] :=
  ⟨c10_bytes_roundtrip.1 (List.replicate 256 3) (by rw [List.length_replicate]),
   c10_bytes_roundtrip.2 [7]⟩

/-- Masking with `0xFF` is reduction modulo 256. -/
theorem and_255_eq_mod (u : ℕ) : u &&& 255 = u % 256 := by
  have h := Nat.and_pow_two_sub_one_eq_mod u 8
  norm_num at h
  exact h

/-- Masking with `0xFFFFFF` is reduction modulo `2^24`. -/
theorem and_mask24_eq_mod (u : ℕ) : u &&& 16777215 = u % 16777216 := by
  have h := Nat.and_pow_two_sub_one_eq_mod u 24
  norm_num at h
  exact h

/-- Shifting right by 8 is division by 256. -/
theorem shiftRight_8_eq_div (u : ℕ) : u >>> 8 = u / 256 := by
  rw [Nat.shiftRight_eq_div_pow]

/-- Shifting right by 16 is division by `2^16`. -/
theorem shiftRight_16_eq_div (u : ℕ) : u >>> 16 = u / 65536 := by
  rw [Nat.shiftRight_eq_div_pow]

/-- Looking up any index below 512 in a 512-entry byte table yields a byte. -/
theorem table_lookup {t : List ℕ} (ht1 : t.length = 512) (ht2 : ∀ x ∈ t, x < 256)
    {i : ℕ} (hi : i < 512) : ∃ y, t[i]? = some y ∧ y < 256 := by
  have hi' : i < t.length := by omega
  exact ⟨t[i], List.getElem?_eq_getElem hi', ht2 _ (List.getElem_mem hi')⟩

/-- The three-byte fold of `u32::perm_mix` stays in bounds for every byte
table and every value: all indices are at most `255 + 255 = 510 < 512`. -/
theorem u32_perm_mix_in_bounds {t : List ℕ} (ht1 : t.length = 512)
    (ht2 : ∀ x ∈ t, x < 256) (u : ℕ) :
    ∃ r, u32.perm_mix t u = some r ∧ r < 256 := by
  have ha : u &&& 255 ≤ 255 := Nat.and_le_right
  have hb : (u >>> 8) &&& 255 ≤ 255 := Nat.and_le_right
  have hc : (u >>> 16) &&& 255 ≤ 255 := Nat.and_le_right
  obtain ⟨pc, hpc, hpc2⟩ := table_lookup ht1 ht2 (i := (u >>> 16) &&& 255) (by omega)
  obtain ⟨pb, hpb, hpb2⟩ := table_lookup ht1 ht2 (i := ((u >>> 8) &&& 255) + pc) (by omega)
  obtain ⟨pa, hpa, hpa2⟩ := table_lookup ht1 ht2 (i := (u &&& 255) + pb) (by omega)
  refine ⟨pa, ?_, hpa2⟩
  simp only [u32.perm_mix]
  rw [hpc, Option.some_bind, hpb, Option.some_bind, hpa]

/-- The two-byte fold of `u16::perm_mix` stays in bounds likewise. -/
theorem u16_perm_mix_in_bounds {t : List ℕ} (ht1 : t.length = 512)
    (ht2 : ∀ x ∈ t, x < 256) (u : ℕ) :
    ∃ r, u16.perm_mix t u = some r ∧ r < 256 := by
  have ha : u &&& 255 ≤ 255 := Nat.and_le_right
  have hb : (u >>> 8) &&& 255 ≤ 255 := Nat.and_le_right
  obtain ⟨pa, hpa, hpa2⟩ := table_lookup ht1 ht2 (i := u &&& 255) (by omega)
  obtain ⟨pb, hpb, hpb2⟩ := table_lookup ht1 ht2 (i := ((u >>> 8) &&& 255) + pa) (by omega)
  refine ⟨pb, ?_, hpb2⟩
  simp only [u16.perm_mix]
  rw [hpa, Option.some_bind, hpb]

/-- C8: for every 512-entry byte table (no permutation-validity assumption:
any bytes, e.g. from `from_bytes`/`from_bytes_padded`) and every coordinate
of every supported scalar type, `perm_mix` performs only in-bounds lookups
(every index is at most `255 + 255 = 510 < 512`), so it always returns a
byte and never panics. -/
theorem c8_mix_in_bounds (t : List ℕ) (ht1 : t.length = 512)
    (ht2 : ∀ x ∈ t, x < 256) :
    (∀ u : ℕ, ∃ r, u8.perm_mix t u = some r ∧ r < 256) ∧
    (∀ u : ℕ, ∃ r, u16.perm_mix t u = some r ∧ r < 256) ∧
    (∀ u : ℕ, ∃ r, u32.perm_mix t u = some r ∧ r < 256) ∧
    (∀ v : ℕ, ∃ r, u64.perm_mix t v = some r ∧ r < 256) ∧
    (∀ v : ℕ, ∃ r, usize.perm_mix t v = some r ∧ r < 256) ∧
    (∀ x : ℤ, ∃ r, i8.perm_mix t x = some r ∧ r < 256) ∧
    (∀ x : ℤ, ∃ r, i16.perm_mix t x = some r ∧ r < 256) ∧
    (∀ x : ℤ, ∃ r, i32.perm_mix t x = some r ∧ r < 256) ∧
    (∀ x : ℤ, ∃ r, i64.perm_mix t x = some r ∧ r < 256) ∧
    (∀ x : ℤ, ∃ r, isize.perm_mix t x = some r ∧ r < 256) := by
  refine ⟨?_, ?_, ?_, ?_, ?_, ?_, ?_, ?_, ?_, ?_⟩
  · intro u
    have h : u &&& 255 ≤ 255 := Nat.and_le_right
    obtain ⟨y, hy, hy2⟩ := table_lookup ht1 ht2 (i := u &&& 255) (by omega)
    exact ⟨y, hy, hy2⟩
  · exact u16_perm_mix_in_bounds ht1 ht2
  · exact u32_perm_mix_in_bounds ht1 ht2
  · intro v
    show ∃ r, u32.perm_mix t (v % 2 ^ 32) = some r ∧ r < 256
    exact u32_perm_mix_in_bounds ht1 ht2 _
  · intro v
    show ∃ r, u32.perm_mix t (v % 2 ^ 32) = some r ∧ r < 256
    exact u32_perm_mix_in_bounds ht1 ht2 _
  · intro x
    have h : (x % 2 ^ 8).toNat &&& 255 ≤ 255 := Nat.and_le_right
    obtain ⟨y, hy, hy2⟩ := table_lookup ht1 ht2 (i := (x % 2 ^ 8).toNat &&& 255) (by omega)
    exact ⟨y, hy, hy2⟩
  · intro x
    simp only [i16.perm_mix]
    exact u16_perm_mix_in_bounds ht1 ht2 _
  · intro x
    simp only [i32.perm_mix]
    exact u32_perm_mix_in_bounds ht1 ht2 _
  · intro x
    simp only [i64.perm_mix]
    exact u32_perm_mix_in_bounds ht1 ht2 _
  · intro x
    simp only [isize.perm_mix]
    exact u32_perm_mix_in_bounds ht1 ht2 _

/-- Concrete instances of `c8_mix_in_bounds` on a non-permutation table. -/
theorem c8_mix_in_bounds_witness :
    (∃ r, u8.perm_mix (List.replicate 512 7) 300 = some r ∧ r < 256) ∧
    (∃ r, u16.perm_mix (List.replicate 512 7) 70000 = some r ∧ r < 256) ∧
    (∃ r, u32.perm_mix (List.replicate 512 7) 123456789 = some r ∧ r < 256) ∧
    (∃ r, u64.perm_mix (List.replicate 512 7) (2 ^ 64 - 1) = some r ∧ r < 256) ∧
    (∃ r, usize.perm_mix (List.replicate 512 7) 42 = some r ∧ r < 256) ∧
    (∃ r, i8.perm_mix (List.replicate 512 7) (-5) = some r ∧ r < 256) ∧
    (∃ r, i16.perm_mix (List.replicate 512 7) (-300) = some r ∧ r < 256) ∧
    (∃ r, i32.perm_mix (List.replicate 512 7) (-123456) = some r ∧ r < 256) ∧
    (∃ r, i64.perm_mix (List.replicate 512 7) (-2 ^ 40) = some r ∧ r < 256) ∧
    (∃ r, isize.perm_mix (List.replicate 512 7) (-1) = some r ∧ r < 256) := by
  have h := c8_mix_in_bounds (List.replicate 512 7) (by rw [List.length_replicate])
    (fun x hx => by rw [List.eq_of_mem_replicate hx]; norm_num)
  exact ⟨h.1 300, h.2.1 70000, h.2.2.1 123456789, h.2.2.2.1 (2 ^ 64 - 1),
    h.2.2.2.2.1 42, h.2.2.2.2.2.1 (-5), h.2.2.2.2.2.2.1 (-300),
    h.2.2.2.2.2.2.2.1 (-123456), h.2.2.2.2.2.2.2.2.1 (-2 ^ 40),
    h.2.2.2.2.2.2.2.2.2 (-1)⟩

/-- `u32::perm_mix` depends only on the low 24 bits of its argument. -/
theorem u32_perm_mix_low24 (t : List ℕ) (u : ℕ) :
    u32.perm_mix t u = u32.perm_mix t (u &&& 16777215) := by
  have h1 : (u &&& 16777215) &&& 255 = u &&& 255 := by
    simp only [and_255_eq_mod, and_mask24_eq_mod]
    omega
  have h2 : ((u &&& 16777215) >>> 8) &&& 255 = (u >>> 8) &&& 255 := by
    simp only [and_255_eq_mod, and_mask24_eq_mod, shiftRight_8_eq_div]
    omega
  have h3 : ((u &&& 16777215) >>> 16) &&& 255 = (u >>> 16) &&& 255 := by
    simp only [and_255_eq_mod, and_mask24_eq_mod, shiftRight_16_eq_div]
    omega
  simp only [u32.perm_mix]
  rw [h1, h2, h3]

/-- C9: for `u32`, `i32`, `u64`, `i64`, `usize` and `isize` coordinates,
`perm_mix` depends only on the low 24 bits of the coordinate:
`mix(x) = mix(x & 0xFFFFFF)`.  (For the signed types, Rust's `x & 0xFFFFFF`
zero-extends the low 24 bits of the two's-complement pattern, which is
exactly the Euclidean remainder `x % 2^24` used here.) -/
theorem c9_mix_low_24_bits :
    (∀ (t : List ℕ) (u : ℕ), u32.perm_mix t u = u32.perm_mix t (u &&& 0xFFFFFF)) ∧
    (∀ (t : List ℕ) (v : ℕ), u64.perm_mix t v = u64.perm_mix t (v &&& 0xFFFFFF)) ∧
    (∀ (t : List ℕ) (v : ℕ), usize.perm_mix t v = usize.perm_mix t (v &&& 0xFFFFFF)) ∧
    (∀ (t : List ℕ) (x : ℤ), i32.perm_mix t x = i32.perm_mix t (x % 2 ^ 24)) ∧
    (∀ (t : List ℕ) (x : ℤ), i64.perm_mix t x = i64.perm_mix t (x % 2 ^ 24)) ∧
    (∀ (t : List ℕ) (x : ℤ), isize.perm_mix t x = isize.perm_mix t (x % 2 ^ 24)) := by
  have hu64 : ∀ (t : List ℕ) (v : ℕ),
      u32.perm_mix t (v % 2 ^ 32) = u32.perm_mix t ((v &&& 16777215) % 2 ^ 32) := by
    intro t v
    have e1 := u32_perm_mix_low24 t (v % 2 ^ 32)
    have e2 := u32_perm_mix_low24 t ((v &&& 16777215) % 2 ^ 32)
    have e3 : (v % 2 ^ 32) &&& 16777215 = ((v &&& 16777215) % 2 ^ 32) &&& 16777215 := by
      simp only [and_mask24_eq_mod]
      omega
    rw [e1, e2, e3]
  have hsig : ∀ (t : List ℕ) (x : ℤ),
      u32.perm_mix t ((x % 2 ^ 32).toNat) = u32.perm_mix t ((x % 2 ^ 24 % 2 ^ 32).toNat) := by
    intro t x
    have e1 := u32_perm_mix_low24 t ((x % 2 ^ 32).toNat)
    have e2 := u32_perm_mix_low24 t ((x % 2 ^ 24 % 2 ^ 32).toNat)
    have e3 : (x % 2 ^ 32).toNat &&& 16777215 = (x % 2 ^ 24 % 2 ^ 32).toNat &&& 16777215 := by
      simp only [and_mask24_eq_mod]
      omega
    rw [e1, e2, e3]
  exact ⟨fun t u => u32_perm_mix_low24 t u,
    fun t v => hu64 t v, fun t v => hu64 t v,
    fun t x => hsig t x, fun t x => hsig t x, fun t x => hsig t x⟩

/-- Concrete instances of `c9_mix_low_24_bits`. -/
theorem c9_mix_low_24_bits_witness :
    u32.perm_mix [] 2882400018 = u32.perm_mix [] (2882400018 &&& 0xFFFFFF) ∧
    i64.perm_mix [] (-77) = i64.perm_mix [] (-77 % 2 ^ 24) :=
  ⟨c9_mix_low_24_bits.1 [] 2882400018, c9_mix_low_24_bits.2.2.2.2.1 [] (-77)⟩

end JustRng
